import Mathlib

/-!
Shallow embedding of the single-instrument order-book matching engine of
`src/app.py` (kerwei/orderbook): order priority comparison, the per-side
resting chains, the matching loop, insertion into the book, iceberg
visibility, and persistence loading.

Modelling conventions:
* Each side's doubly-linked chain (head node to terminal sentinel) is
  represented by the list of its resting non-sentinel orders in head-to-tail
  order; the sentinel is implicit at the end of the list.  `fetch_orders`
  yields exactly these nodes, every traversal in the source follows `nextnd`
  pointers from the side's head, and `prevnd` pointers always agree with the
  list predecessor, so the list view is faithful.
* Prices of real orders are rationals; the sentinels' `float('±inf')` and the
  effective bid/ask, which can hold infinities, are modelled by `EPrice`.
* Volumes are natural numbers; the source's `max(a - b, 0)` is `Nat`
  truncated subtraction.
* `datetime.now()` stamps are naturals, increasing with creation order.
-/

inductive Side where
  | B : Side
  | S : Side
deriving DecidableEq, Repr

/-- Extended price: a finite rational, or the infinities `float('±inf')`
used by the sentinel nodes and the initial effective prices. -/
inductive EPrice where
  | negInf : EPrice
  | fin : ℚ → EPrice
  | posInf : EPrice
deriving DecidableEq, Repr

/-- `a ≤ b` on extended prices, matching Python float comparison. -/
def EPrice.le : EPrice → EPrice → Bool
  | .negInf, _ => true
  | _, .posInf => true
  | .fin a, .fin b => decide (a ≤ b)
  | .posInf, _ => false
  | .fin _, .negInf => false

/-- An order record: `Order.__init__` fields that matter to book behaviour.
`ordertime` is the `datetime.now()` stamp; `iceberg` is `_iceberg`
(`None` when the optional visible field is absent). -/
structure Order where
  orderid : String
  side : Side
  price : ℚ
  volume : Nat
  ordertime : Nat
  iceberg : Option Nat := none
deriving DecidableEq, Repr

/-- `Order._ordertime_priority`: -1 if `a` is newer than `b`, 1 if older,
0 if equal. -/
def Order.ordertime_priority (a b : Order) : Int :=
  if b.ordertime < a.ordertime then -1
  else if a.ordertime < b.ordertime then 1
  else 0

/-- `__le__` of `BuyOrder` / `SellOrder`, dispatched on the side of the
receiver `a` as Python virtual dispatch does.  For Sell, a higher price has
lower priority; for Buy, a higher price has higher priority; at equal price
the newer order time has lower priority. -/
def Order.le (a b : Order) : Bool :=
  match a.side with
  | Side.S =>
    if b.price < a.price then true
    else if a.price < b.price then false
    else decide (a.ordertime_priority b ≤ 0)
  | Side.B =>
    if b.price < a.price then false
    else if a.price < b.price then true
    else decide (a.ordertime_priority b ≤ 0)

/-- `Order.visible_volume`: `min(self._iceberg, self.volume) if self._iceberg
else self.volume`.  Python truthiness makes both `None` and `0` fall through
to the `else` branch. -/
def Order.visible_volume (o : Order) : Nat :=
  match o.iceberg with
  | some i => if i ≠ 0 then min i o.volume else o.volume
  | none => o.volume

/-- One execution report: the arguments of a call to `execute_order`. -/
structure Report where
  execid : String
  openid : String
  price : ℚ
  volume : Nat
deriving DecidableEq, Repr

/-- The book state: each side's resting chain plus the effective prices.
(The save-file path attribute plays no role in book behaviour.) -/
structure OrderBook where
  buys : List Order
  sells : List Order
  effectivebid : EPrice
  effectiveask : EPrice
deriving DecidableEq, Repr

/-- `OrderBook.__init__`: both chains hold only their sentinel, and
`effectivebid = float('inf')`, `effectiveask = float('-inf')`. -/
def OrderBook.init : OrderBook :=
  { buys := [], sells := [], effectivebid := EPrice.posInf,
    effectiveask := EPrice.negInf }

/-- Price of the sell chain's head node: the sell sentinel's `+inf` when the
chain holds no resting order. -/
def sellHeadPrice : List Order → EPrice
  | [] => EPrice.posInf
  | nd :: _ => EPrice.fin nd.price

/-- Price of the buy chain's head node: the buy sentinel's `-inf` when the
chain holds no resting order. -/
def buyHeadPrice : List Order → EPrice
  | [] => EPrice.negInf
  | nd :: _ => EPrice.fin nd.price

/-- `OrderBook._process_buy`, with the sell chain and `effectiveask` passed
and returned explicitly.  Returns the incoming order with its final volume,
the remaining sell chain, the updated `effectiveask`, and the emitted
execution reports in order.

When the head survives with positive volume (`ndvol ≠ 0`), `Nat` arithmetic
forces `balance = 0`, so the source's `if not order.volume: break` always
fires there and the loop exits. -/
def process_buy (order : Order) (sells : List Order) (ask : EPrice) :
    Order × List Order × EPrice × List Report :=
  match sells with
  | [] => (order, [], ask, [])
  | nd :: rest =>
    if nd.price ≤ order.price then
      let balance := order.volume - nd.volume
      let traded := if balance = 0 then order.volume else nd.volume
      let rpt : Report :=
        { execid := order.orderid, openid := nd.orderid,
          price := nd.price, volume := traded }
      let ndvol := nd.volume - order.volume
      let order1 : Order := { order with volume := balance }
      if ndvol = 0 then
        let ask1 := sellHeadPrice rest
        if order1.volume = 0 then (order1, rest, ask1, [rpt])
        else
          let r := process_buy order1 rest ask1
          (r.1, r.2.1, r.2.2.1, rpt :: r.2.2.2)
      else
        (order1, { nd with volume := ndvol } :: rest, ask, [rpt])
    else (order, sells, ask, [])

/-- `OrderBook._process_sell`, symmetric to `process_buy` over the buy
chain and `effectivebid`. -/
def process_sell (order : Order) (buys : List Order) (bid : EPrice) :
    Order × List Order × EPrice × List Report :=
  match buys with
  | [] => (order, [], bid, [])
  | nd :: rest =>
    if order.price ≤ nd.price then
      let balance := order.volume - nd.volume
      let traded := if balance = 0 then order.volume else nd.volume
      let rpt : Report :=
        { execid := order.orderid, openid := nd.orderid,
          price := nd.price, volume := traded }
      let ndvol := nd.volume - order.volume
      let order1 : Order := { order with volume := balance }
      if ndvol = 0 then
        let bid1 := buyHeadPrice rest
        if order1.volume = 0 then (order1, rest, bid1, [rpt])
        else
          let r := process_sell order1 rest bid1
          (r.1, r.2.1, r.2.2.1, rpt :: r.2.2.2)
      else
        (order1, { nd with volume := ndvol } :: rest, bid, [rpt])
    else (order, buys, bid, [])

/-- The scan of `add_to_book`: index of the first resting order `nd` in
`fetch_orders(side)` with `not (order <= nd)`, `none` when the scan falls
through to the `for ... else` branch. -/
def findSplice (order : Order) : List Order → Option Nat
  | [] => none
  | nd :: rest =>
    if order.le nd then (findSplice order rest).map (· + 1) else some 0

/-- Splice `order` immediately before position `i` of the chain. -/
def insertAt (order : Order) : Nat → List Order → List Order
  | 0, chain => order :: chain
  | _ + 1, [] => [order]
  | i + 1, nd :: rest => nd :: insertAt order i rest

/-- One side of `OrderBook.add_to_book`: the new chain, and whether the
spliced order ended with `prevnd is None` (making it the new head).  In the
`for ... else` branch the source splices the order immediately before the
side's current head node — the sentinel only when the chain is empty — and
the order always becomes the new head. -/
def add_side (order : Order) (chain : List Order) : List Order × Bool :=
  match findSplice order chain with
  | some i => (insertAt order i chain, decide (i = 0))
  | none => (order :: chain, true)

/-- `OrderBook.add_to_book`: splice the order into its own side's chain and,
when it has no predecessor, make it the head and update the side's
effective price. -/
def add_to_book (book : OrderBook) (order : Order) : OrderBook :=
  match order.side with
  | Side.B =>
    let r := add_side order book.buys
    if r.2 then
      { book with buys := r.1, effectivebid := EPrice.fin order.price }
    else { book with buys := r.1 }
  | Side.S =>
    let r := add_side order book.sells
    if r.2 then
      { book with sells := r.1, effectiveask := EPrice.fin order.price }
    else { book with sells := r.1 }

/-- The matching phase of one `process_orders` iteration: run
`_process_buy` when the order is a Buy with `price >= effectiveask`,
`_process_sell` when it is a Sell with `price <= effectivebid`, otherwise
leave the order and book untouched.  Returns the processed order, the
updated book, and the reports. -/
def matchStep (book : OrderBook) (order : Order) :
    Order × OrderBook × List Report :=
  if order.side = Side.B ∧ EPrice.le book.effectiveask (EPrice.fin order.price) then
    let r := process_buy order book.sells book.effectiveask
    (r.1, { book with sells := r.2.1, effectiveask := r.2.2.1 }, r.2.2.2)
  else if order.side = Side.S ∧ EPrice.le (EPrice.fin order.price) book.effectivebid then
    let r := process_sell order book.buys book.effectivebid
    (r.1, { book with buys := r.2.1, effectivebid := r.2.2.1 }, r.2.2.2)
  else (order, book, [])

/-- One full `process_orders` iteration: match, then `add_to_book` the
remainder exactly when its volume is non-zero (`if order.volume:`). -/
def process_one (book : OrderBook) (order : Order) : OrderBook × List Report :=
  let r := matchStep book order
  if r.1.volume ≠ 0 then (add_to_book r.2.1 r.1, r.2.2) else (r.2.1, r.2.2)

/-- `OrderBook.process_orders` over a list of incoming orders, collecting
all execution reports in emission order. -/
def process_orders (book : OrderBook) (orders : List Order) :
    OrderBook × List Report :=
  match orders with
  | [] => (book, [])
  | o :: rest =>
    let r := process_one book o
    let r2 := process_orders r.1 rest
    (r2.1, r.2 ++ r2.2)

/-- The spec's strict priority order on resting orders of one side: better
price first (higher for Buy, lower for Sell), ties broken by earlier
arrival time. -/
def higherPriority (s : Side) (a b : Order) : Prop :=
  match s with
  | Side.B => b.price < a.price ∨ (a.price = b.price ∧ a.ordertime < b.ordertime)
  | Side.S => a.price < b.price ∨ (a.price = b.price ∧ a.ordertime < b.ordertime)

instance (s : Side) : DecidableRel (higherPriority s) := by
  intro a b
  cases s <;> simp only [higherPriority] <;> infer_instance

/-- A chain is strictly priority-ordered when every order has strictly
higher priority than each order after it. -/
def chainOrdered (s : Side) (chain : List Order) : Prop :=
  chain.Pairwise (higherPriority s)

instance (s : Side) (chain : List Order) : Decidable (chainOrdered s chain) :=
  inferInstanceAs (Decidable (chain.Pairwise (higherPriority s)))

/-- Sum of the transacted volumes of a list of execution reports. -/
def sumVol (rs : List Report) : Nat :=
  (rs.map Report.volume).sum

/-- The chain of the book belonging to the given side. -/
def sideChain (bk : OrderBook) (s : Side) : List Order :=
  match s with
  | Side.B => bk.buys
  | Side.S => bk.sells

/-- Spec-following definition of visible quantity, for comparison with
`Order.visible_volume`: `min(disclosed-quantity, quantity)` whenever a
disclosed-quantity is set, else the quantity. -/
def specVisibleVolume (o : Order) : Nat :=
  match o.iceberg with
  | some i => min i o.volume
  | none => o.volume

/-- The persisted-state inputs `load_book` can face: a missing save file, a
byte stream the unpickler cannot complete, or a complete snapshot of some
book state. -/
inductive Persisted where
  | absent : Persisted
  | truncated : Persisted
  | snapshot : OrderBook → Persisted

/-- `load_book` (src/app.py): `open` followed by `pickle.load`.  An absent
file raises `FileNotFoundError` and a truncated stream raises an unpickling
error, both propagating to the caller; a complete snapshot is returned
exactly as pickled, with no validation of any book invariant. -/
def load_book : Persisted → Except String OrderBook
  | Persisted.absent => Except.error "FileNotFoundError"
  | Persisted.truncated => Except.error "UnpicklingError"
  | Persisted.snapshot bk => Except.ok bk

/-- A Buy resting at price 100 since time 0. -/
def oB100 : Order :=
  { orderid := "1", side := Side.B, price := 100, volume := 5, ordertime := 0 }

/-- A later, lower-priced Buy: lower priority than `oB100` on the buy side. -/
def oB90 : Order :=
  { orderid := "2", side := Side.B, price := 90, volume := 5, ordertime := 1 }

/-- A Sell at price 100 that exactly fills `oB100`. -/
def oS100 : Order :=
  { orderid := "3", side := Side.S, price := 100, volume := 5, ordertime := 1 }

/-- A book holding only the resting Buy `oB100`. -/
def bookB100 : OrderBook :=
  { buys := [oB100], sells := [], effectivebid := EPrice.fin 100,
    effectiveask := EPrice.negInf }

/-- An iceberg order whose disclosed quantity is `0`. -/
def oIce0 : Order :=
  { orderid := "z", side := Side.B, price := 10, volume := 5, ordertime := 0,
    iceberg := some 0 }

/-- An iceberg order whose disclosed quantity is `50`, above its volume. -/
def oIce50 : Order :=
  { orderid := "y", side := Side.B, price := 10, volume := 5, ordertime := 0,
    iceberg := some 50 }

/-- A book whose buy chain violates the strict priority order. -/
def badBook : OrderBook :=
  { buys := [oB90, oB100], sells := [], effectivebid := EPrice.fin 90,
    effectiveask := EPrice.negInf }

/-- C1: inserting `oB90` into a chain whose only resting order `oB100` has
priority ≥ `oB90` does not append it before the sentinel as the new tail
(`[oB100, oB90]`); the `for ... else` branch of `add_to_book` splices it
immediately before the current head, so it becomes the new head and even
overwrites `effectivebid`, contradicting the comment that the branch is
"only in-scope when the chain consists of only terminal nodes" and the
class contract of maintaining price-time priority. -/
theorem add_to_book_lowest_priority_not_tail :
    Order.le oB90 oB100 = true ∧
    (add_to_book bookB100 oB90).buys = [oB90, oB100] ∧
    (add_to_book bookB100 oB90).effectivebid = EPrice.fin 90 ∧
    [oB90, oB100] ≠ [oB100, oB90] := by decide

/-- C2: after `process_orders` handles a Buy at 100 and then a Buy at 90,
the buy chain is `[oB90, oB100]`, which is not strictly priority-ordered
(best price is not first), contradicting the price-time-priority contract
stated in the `OrderBook` docstring and exercised by the repository tests. -/
theorem process_orders_chain_not_ordered :
    (process_orders OrderBook.init [oB100, oB90]).1.buys = [oB90, oB100] ∧
    ¬ chainOrdered Side.B [oB90, oB100] := by decide

/-- C3 counterexample: a Buy at 100 rests, then a Sell at 100 fully fills
it; the buy chain is left empty while `effectivebid` is the buy sentinel's
`-inf`, not the `+inf` the claim requires for an empty buy chain. -/
theorem effectivebid_after_emptied_cex :
    (process_orders OrderBook.init [oB100, oS100]).1.buys = [] ∧
    (process_orders OrderBook.init [oB100, oS100]).1.effectivebid = EPrice.negInf ∧
    EPrice.negInf ≠ EPrice.posInf := by decide

/-- C7 counterexample: an order with disclosed quantity `0` and volume `5`.
The claim's `min(disclosed, quantity)` is `0`, but `visible_volume`
evaluates to `5` because Python truthiness treats `_iceberg = 0` as unset. -/
theorem visible_volume_zero_iceberg_cex :
    oIce0.iceberg = some 0 ∧
    Order.visible_volume oIce0 = 5 ∧
    specVisibleVolume oIce0 = 0 ∧
    Order.visible_volume oIce0 ≠ specVisibleVolume oIce0 := by decide

/-- C7 amended: `visible_volume` is `min(disclosed, quantity)` whenever a
non-zero disclosed quantity is set, and equals the quantity otherwise —
both when no disclosed quantity is set and when it is set to `0`. -/
theorem visible_volume_amended :
    ∀ o : Order,
      (∀ i, o.iceberg = some i → i ≠ 0 → o.visible_volume = min i o.volume) ∧
      ((o.iceberg = none ∨ o.iceberg = some 0) → o.visible_volume = o.volume) := by
  intro o
  constructor
  · intro i hi hne
    simp [Order.visible_volume, hi, hne]
  · intro h
    rcases h with h | h <;> simp [Order.visible_volume, h]

/-- Witness for the amended C7 theorem at the concrete iceberg orders. -/
theorem visible_volume_amended_witness :
    Order.visible_volume oIce50 = min 50 oIce50.volume ∧
    Order.visible_volume oIce0 = oIce0.volume :=
  ⟨(visible_volume_amended oIce50).1 50 rfl (by decide),
   (visible_volume_amended oIce0).2 (Or.inr rfl)⟩

/-- C8 counterexample: a complete snapshot of a book whose buy chain
violates the strict priority order loads successfully — `load_book` is bare
unpickling and performs no invariant validation. -/
theorem load_book_no_invariant_check :
    load_book (Persisted.snapshot badBook) = Except.ok badBook ∧
    ¬ chainOrdered Side.B badBook.buys := ⟨rfl, by decide⟩

/-- C8 amended: the load fails explicitly — the error reaches the caller —
when the persisted data is absent or truncated, while any complete snapshot
is restored verbatim without validation of the ordering invariant. -/
theorem load_book_amended :
    load_book Persisted.absent = Except.error "FileNotFoundError" ∧
    load_book Persisted.truncated = Except.error "UnpicklingError" ∧
    ∀ bk : OrderBook, load_book (Persisted.snapshot bk) = Except.ok bk :=
  ⟨rfl, rfl, fun _ => rfl⟩

/-- The transacted volume `if balance == 0 then order.volume else nd.volume`
is the minimum of the two volumes. -/
theorem if_sub_eq_min (a b : Nat) : (if a - b = 0 then a else b) = min a b := by
  split <;> omega

/-- The final volume of the incoming order plus all transacted volumes
reported by `_process_buy` equals the incoming volume. -/
theorem process_buy_volume_total :
    ∀ (sells : List Order) (o : Order) (ask : EPrice),
      (process_buy o sells ask).1.volume
        + sumVol (process_buy o sells ask).2.2.2 = o.volume := by
  intro sells
  induction sells with
  | nil => intro o ask; simp [process_buy, sumVol]
  | cons nd rest ih =>
    intro o ask
    by_cases hg : nd.price ≤ o.price
    · by_cases hnd : nd.volume - o.volume = 0
      · by_cases hov : o.volume - nd.volume = 0
        · simp [process_buy, hg, hnd, hov, sumVol, if_sub_eq_min]
        · have hrec := ih { o with volume := o.volume - nd.volume } (sellHeadPrice rest)
          simp [process_buy, hg, hnd, hov, sumVol, if_sub_eq_min] at hrec ⊢
          omega
      · simp [process_buy, hg, hnd, sumVol, if_sub_eq_min]
    · simp [process_buy, hg, sumVol]

/-- The final volume of the incoming order plus all transacted volumes
reported by `_process_sell` equals the incoming volume. -/
theorem process_sell_volume_total :
    ∀ (buys : List Order) (o : Order) (bid : EPrice),
      (process_sell o buys bid).1.volume
        + sumVol (process_sell o buys bid).2.2.2 = o.volume := by
  intro buys
  induction buys with
  | nil => intro o bid; simp [process_sell, sumVol]
  | cons nd rest ih =>
    intro o bid
    by_cases hg : o.price ≤ nd.price
    · by_cases hnd : nd.volume - o.volume = 0
      · by_cases hov : o.volume - nd.volume = 0
        · simp [process_sell, hg, hnd, hov, sumVol, if_sub_eq_min]
        · have hrec := ih { o with volume := o.volume - nd.volume } (buyHeadPrice rest)
          simp [process_sell, hg, hnd, hov, sumVol, if_sub_eq_min] at hrec ⊢
          omega
      · simp [process_sell, hg, hnd, sumVol, if_sub_eq_min]
    · simp [process_sell, hg, sumVol]

/-- The reports a `process_orders` iteration emits are those of its
matching phase; `add_to_book` emits none. -/
theorem process_one_reports (bk : OrderBook) (o : Order) :
    (process_one bk o).2 = (matchStep bk o).2.2 := by
  simp only [process_one]
  split <;> rfl

/-- The matched order's final volume plus the transacted volumes of all
reports of the iteration equals the incoming volume. -/
theorem matchStep_volume_total (bk : OrderBook) (o : Order) :
    (matchStep bk o).1.volume + sumVol (matchStep bk o).2.2 = o.volume := by
  unfold matchStep
  split
  · exact process_buy_volume_total bk.sells o bk.effectiveask
  · split
    · exact process_sell_volume_total bk.buys o bk.effectivebid
    · simp [sumVol]

/-- C5: for every single processed incoming order, the sum of the
transacted quantities over the execution reports emitted by that
`process_orders` iteration equals the order's initial volume minus its
final volume (and the final volume never exceeds the initial one). -/
theorem process_volume_conservation :
    ∀ (bk : OrderBook) (o : Order),
      sumVol (process_one bk o).2 = o.volume - (matchStep bk o).1.volume ∧
      (matchStep bk o).1.volume ≤ o.volume := by
  intro bk o
  have key := matchStep_volume_total bk o
  rw [process_one_reports]
  omega

/-- C4: whenever the opposite chain's head `nd` still crosses the incoming
order's price, the match emits, first among the reports of the call, exactly
one execution report carrying the incoming (taker) id, the resting (maker)
id, the resting order's price — never the incoming price — and a transacted
volume of `min(incoming.volume, head.volume)`; both `_process_buy` and
`_process_sell` behave this way. -/
theorem match_head_report :
    ∀ (o nd : Order) (rest : List Order) (ask bid : EPrice),
      (nd.price ≤ o.price →
        ∃ tail, (process_buy o (nd :: rest) ask).2.2.2 =
          { execid := o.orderid, openid := nd.orderid, price := nd.price,
            volume := min o.volume nd.volume } :: tail) ∧
      (o.price ≤ nd.price →
        ∃ tail, (process_sell o (nd :: rest) bid).2.2.2 =
          { execid := o.orderid, openid := nd.orderid, price := nd.price,
            volume := min o.volume nd.volume } :: tail) := by
  intro o nd rest ask bid
  constructor
  · intro h
    by_cases hnd : nd.volume - o.volume = 0
    · by_cases hov : o.volume - nd.volume = 0
      · exact ⟨[], by simp [process_buy, h, hnd, hov, if_sub_eq_min] <;> omega⟩
      · exact ⟨(process_buy { o with volume := o.volume - nd.volume } rest
            (sellHeadPrice rest)).2.2.2,
          by simp [process_buy, h, hnd, hov, if_sub_eq_min] <;> omega⟩
    · exact ⟨[], by simp [process_buy, h, hnd, if_sub_eq_min] <;> omega⟩
  · intro h
    by_cases hnd : nd.volume - o.volume = 0
    · by_cases hov : o.volume - nd.volume = 0
      · exact ⟨[], by simp [process_sell, h, hnd, hov, if_sub_eq_min] <;> omega⟩
      · exact ⟨(process_sell { o with volume := o.volume - nd.volume } rest
            (buyHeadPrice rest)).2.2.2,
          by simp [process_sell, h, hnd, hov, if_sub_eq_min] <;> omega⟩
    · exact ⟨[], by simp [process_sell, h, hnd, if_sub_eq_min] <;> omega⟩

/-- Witness for `match_head_report` at concrete crossing orders. -/
theorem match_head_report_witness :
    (∃ tail, (process_buy oB100 [oS100] EPrice.negInf).2.2.2 =
      { execid := oB100.orderid, openid := oS100.orderid, price := oS100.price,
        volume := min oB100.volume oS100.volume } :: tail) ∧
    (∃ tail, (process_sell oS100 [oB100] EPrice.posInf).2.2.2 =
      { execid := oS100.orderid, openid := oB100.orderid, price := oB100.price,
        volume := min oS100.volume oB100.volume } :: tail) :=
  ⟨(match_head_report oB100 oS100 [] EPrice.negInf EPrice.posInf).1 (by decide),
   (match_head_report oS100 oB100 [] EPrice.posInf EPrice.negInf).2 (by decide)⟩

/-- The spliced order is always an element of the chain `add_side` builds. -/
theorem mem_insertAt (o : Order) : ∀ (i : Nat) (chain : List Order),
    o ∈ insertAt o i chain := by
  intro i
  induction i with
  | zero => intro chain; simp [insertAt]
  | succ j ih =>
    intro chain
    cases chain with
    | nil => simp [insertAt]
    | cons nd rest =>
      simp only [insertAt, List.mem_cons]
      exact Or.inr (ih rest)

/-- Every element of the chain `insertAt` builds is the spliced order or an
element of the original chain. -/
theorem mem_insertAt_elim (x o : Order) : ∀ (i : Nat) (chain : List Order),
    x ∈ insertAt o i chain → x = o ∨ x ∈ chain := by
  intro i
  induction i with
  | zero => intro chain hx; simpa [insertAt] using hx
  | succ j ih =>
    intro chain hx
    cases chain with
    | nil =>
      simp [insertAt] at hx
      exact Or.inl hx
    | cons nd rest =>
      simp only [insertAt, List.mem_cons] at hx
      rcases hx with rfl | hx
      · exact Or.inr (List.mem_cons_self _ _)
      · rcases ih rest hx with hx | hx
        · exact Or.inl hx
        · exact Or.inr (List.mem_cons_of_mem _ hx)

/-- The order handed to `add_side` is in the resulting chain. -/
theorem mem_add_side (o : Order) (chain : List Order) :
    o ∈ (add_side o chain).1 := by
  unfold add_side
  split
  · exact mem_insertAt o _ chain
  · simp

/-- Every element of the chain `add_side` builds is the spliced order or an
element of the original chain. -/
theorem mem_add_side_elim (x o : Order) (chain : List Order) :
    x ∈ (add_side o chain).1 → x = o ∨ x ∈ chain := by
  unfold add_side
  split
  · exact mem_insertAt_elim x o _ chain
  · intro hx
    simpa using hx

/-- `add_to_book` places the order into its own side's chain. -/
theorem add_to_book_mem (bk : OrderBook) (o : Order) :
    o ∈ sideChain (add_to_book bk o) o.side := by
  cases hs : o.side with
  | B =>
    simp only [add_to_book, hs, sideChain]
    split <;> exact mem_add_side o bk.buys
  | S =>
    simp only [add_to_book, hs, sideChain]
    split <;> exact mem_add_side o bk.sells

/-- `_process_buy` never changes the incoming order's side. -/
theorem process_buy_side : ∀ (sells : List Order) (o : Order) (ask : EPrice),
    (process_buy o sells ask).1.side = o.side := by
  intro sells
  induction sells with
  | nil => intro o ask; simp [process_buy]
  | cons nd rest ih =>
    intro o ask
    by_cases hg : nd.price ≤ o.price
    · by_cases hnd : nd.volume - o.volume = 0
      · by_cases hov : o.volume - nd.volume = 0
        · simp [process_buy, hg, hnd, hov]
        · simpa [process_buy, hg, hnd, hov] using
            ih { o with volume := o.volume - nd.volume } (sellHeadPrice rest)
      · simp [process_buy, hg, hnd]
    · simp [process_buy, hg]

/-- `_process_sell` never changes the incoming order's side. -/
theorem process_sell_side : ∀ (buys : List Order) (o : Order) (bid : EPrice),
    (process_sell o buys bid).1.side = o.side := by
  intro buys
  induction buys with
  | nil => intro o bid; simp [process_sell]
  | cons nd rest ih =>
    intro o bid
    by_cases hg : o.price ≤ nd.price
    · by_cases hnd : nd.volume - o.volume = 0
      · by_cases hov : o.volume - nd.volume = 0
        · simp [process_sell, hg, hnd, hov]
        · simpa [process_sell, hg, hnd, hov] using
            ih { o with volume := o.volume - nd.volume } (buyHeadPrice rest)
      · simp [process_sell, hg, hnd]
    · simp [process_sell, hg]

/-- The matching phase never changes the incoming order's side. -/
theorem matchStep_side (bk : OrderBook) (o : Order) :
    (matchStep bk o).1.side = o.side := by
  unfold matchStep
  split
  · exact process_buy_side bk.sells o bk.effectiveask
  · split
    · exact process_sell_side bk.buys o bk.effectivebid
    · rfl

/-- C6: after matching, the processed order is inserted into its own side's
chain exactly when its remaining volume is positive; a fully filled order
leaves the book exactly as matching left it, so it is never inserted. -/
theorem remainder_inserted_iff :
    ∀ (bk : OrderBook) (o : Order),
      (0 < (matchStep bk o).1.volume →
        (process_one bk o).1 = add_to_book (matchStep bk o).2.1 (matchStep bk o).1 ∧
        (matchStep bk o).1 ∈ sideChain (process_one bk o).1 o.side) ∧
      ((matchStep bk o).1.volume = 0 →
        (process_one bk o).1 = (matchStep bk o).2.1) := by
  intro bk o
  constructor
  · intro hpos
    have hne : (matchStep bk o).1.volume ≠ 0 := by omega
    have h1 : (process_one bk o).1
        = add_to_book (matchStep bk o).2.1 (matchStep bk o).1 := by
      simp only [process_one]
      rw [if_pos hne]
    refine ⟨h1, ?_⟩
    rw [h1]
    have hm := add_to_book_mem (matchStep bk o).2.1 (matchStep bk o).1
    rwa [matchStep_side bk o] at hm
  · intro hz
    simp only [process_one]
    rw [if_neg (by omega)]

/-- Witness for `remainder_inserted_iff`: the Buy at 100 rests untouched in
the empty initial book, and the Sell that exactly fills `oB100` in
`bookB100` is never inserted. -/
theorem remainder_inserted_iff_witness :
    ((process_one OrderBook.init oB100).1
        = add_to_book (matchStep OrderBook.init oB100).2.1
            (matchStep OrderBook.init oB100).1 ∧
      (matchStep OrderBook.init oB100).1
        ∈ sideChain (process_one OrderBook.init oB100).1 oB100.side) ∧
    (process_one bookB100 oS100).1 = (matchStep bookB100 oS100).2.1 :=
  ⟨(remainder_inserted_iff OrderBook.init oB100).1 (by decide),
   (remainder_inserted_iff bookB100 oS100).2 (by decide)⟩

/-- Every order in the chain has positive volume. -/
def allPositive (chain : List Order) : Prop :=
  ∀ x ∈ chain, 0 < x.volume

/-- Both resting chains hold only positive-volume orders. -/
def bookPositive (bk : OrderBook) : Prop :=
  allPositive bk.buys ∧ allPositive bk.sells

/-- `_process_buy` keeps every surviving resting sell's volume positive: a
head is removed in the same iteration its volume reaches zero, and deeper
orders are untouched. -/
theorem process_buy_sells_positive :
    ∀ (sells : List Order) (o : Order) (ask : EPrice),
      allPositive sells → allPositive (process_buy o sells ask).2.1 := by
  intro sells
  induction sells with
  | nil => intro o ask h; simpa [process_buy] using h
  | cons nd rest ih =>
    intro o ask h
    have hrest : allPositive rest := fun x hx => h x (List.mem_cons_of_mem _ hx)
    by_cases hg : nd.price ≤ o.price
    · by_cases hnd : nd.volume - o.volume = 0
      · by_cases hov : o.volume - nd.volume = 0
        · simpa [process_buy, hg, hnd, hov] using hrest
        · simpa [process_buy, hg, hnd, hov] using
            ih { o with volume := o.volume - nd.volume } (sellHeadPrice rest) hrest
      · intro x hx
        simp [process_buy, hg, hnd] at hx
        rcases hx with rfl | hx
        · simpa using Nat.pos_of_ne_zero hnd
        · exact hrest x hx
    · simpa [process_buy, hg] using h

/-- `_process_sell` keeps every surviving resting buy's volume positive. -/
theorem process_sell_buys_positive :
    ∀ (buys : List Order) (o : Order) (bid : EPrice),
      allPositive buys → allPositive (process_sell o buys bid).2.1 := by
  intro buys
  induction buys with
  | nil => intro o bid h; simpa [process_sell] using h
  | cons nd rest ih =>
    intro o bid h
    have hrest : allPositive rest := fun x hx => h x (List.mem_cons_of_mem _ hx)
    by_cases hg : o.price ≤ nd.price
    · by_cases hnd : nd.volume - o.volume = 0
      · by_cases hov : o.volume - nd.volume = 0
        · simpa [process_sell, hg, hnd, hov] using hrest
        · simpa [process_sell, hg, hnd, hov] using
            ih { o with volume := o.volume - nd.volume } (buyHeadPrice rest) hrest
      · intro x hx
        simp [process_sell, hg, hnd] at hx
        rcases hx with rfl | hx
        · simpa using Nat.pos_of_ne_zero hnd
        · exact hrest x hx
    · simpa [process_sell, hg] using h

/-- The matching phase preserves positivity of all resting volumes. -/
theorem matchStep_positive (bk : OrderBook) (o : Order)
    (h : bookPositive bk) : bookPositive (matchStep bk o).2.1 := by
  unfold matchStep
  split
  · exact ⟨h.1, process_buy_sells_positive bk.sells o bk.effectiveask h.2⟩
  · split
    · exact ⟨process_sell_buys_positive bk.buys o bk.effectivebid h.1, h.2⟩
    · exact h

/-- Inserting a positive-volume order preserves positivity. -/
theorem add_to_book_positive (bk : OrderBook) (o : Order) (ho : 0 < o.volume)
    (h : bookPositive bk) : bookPositive (add_to_book bk o) := by
  cases hs : o.side with
  | B =>
    constructor
    · intro x hx
      have hx' : x ∈ (add_side o bk.buys).1 := by
        revert hx
        simp only [add_to_book, hs]
        split <;> exact fun hx => hx
      rcases mem_add_side_elim x o bk.buys hx' with rfl | hmem
      · exact ho
      · exact h.1 x hmem
    · intro x hx
      have hx' : x ∈ bk.sells := by
        revert hx
        simp only [add_to_book, hs]
        split <;> exact fun hx => hx
      exact h.2 x hx'
  | S =>
    constructor
    · intro x hx
      have hx' : x ∈ bk.buys := by
        revert hx
        simp only [add_to_book, hs]
        split <;> exact fun hx => hx
      exact h.1 x hx'
    · intro x hx
      have hx' : x ∈ (add_side o bk.sells).1 := by
        revert hx
        simp only [add_to_book, hs]
        split <;> exact fun hx => hx
      rcases mem_add_side_elim x o bk.sells hx' with rfl | hmem
      · exact ho
      · exact h.2 x hmem

/-- One `process_orders` iteration preserves positivity of all resting
volumes. -/
theorem process_one_positive (bk : OrderBook) (o : Order)
    (h : bookPositive bk) : bookPositive (process_one bk o).1 := by
  simp only [process_one]
  split
  · next hne =>
    exact add_to_book_positive _ _ (Nat.pos_of_ne_zero hne) (matchStep_positive bk o h)
  · exact matchStep_positive bk o h

/-- `process_orders` preserves positivity of all resting volumes. -/
theorem process_orders_positive :
    ∀ (orders : List Order) (bk : OrderBook),
      bookPositive bk → bookPositive (process_orders bk orders).1 := by
  intro orders
  induction orders with
  | nil => intro bk h; simpa [process_orders] using h
  | cons o rest ih =>
    intro bk h
    simpa [process_orders] using ih _ (process_one_positive bk o h)

/-- C9: after every `process_orders` run from the initial book, every
non-sentinel resting order in both chains has strictly positive volume:
matching removes a head exactly when its volume reaches zero, and only
positive-volume remainders are ever inserted. -/
theorem resting_volumes_positive :
    ∀ orders : List Order,
      allPositive (process_orders OrderBook.init orders).1.buys ∧
      allPositive (process_orders OrderBook.init orders).1.sells := by
  intro orders
  exact process_orders_positive orders OrderBook.init
    ⟨fun x hx => absurd hx (List.not_mem_nil x),
     fun x hx => absurd hx (List.not_mem_nil x)⟩

/-- Consistency of `effectiveask` with the sell chain: the head order's
price when the chain is non-empty; one of the two infinities (the initial
`-inf`, or the sell sentinel's `+inf` once matching emptied the chain)
when it is empty. -/
def sellsAskInv (sells : List Order) (ask : EPrice) : Prop :=
  (∀ nd rest, sells = nd :: rest → ask = EPrice.fin nd.price) ∧
  (sells = [] → ask = EPrice.negInf ∨ ask = EPrice.posInf)

/-- Consistency of `effectivebid` with the buy chain: the head order's
price when the chain is non-empty; one of the two infinities (the initial
`+inf`, or the buy sentinel's `-inf` once matching emptied the chain)
when it is empty. -/
def buysBidInv (buys : List Order) (bid : EPrice) : Prop :=
  (∀ nd rest, buys = nd :: rest → bid = EPrice.fin nd.price) ∧
  (buys = [] → bid = EPrice.posInf ∨ bid = EPrice.negInf)

/-- Both effective prices are consistent with their chain heads. -/
def priceInvariant (bk : OrderBook) : Prop :=
  buysBidInv bk.buys bk.effectivebid ∧ sellsAskInv bk.sells bk.effectiveask

/-- The sell-head price always satisfies the ask consistency invariant. -/
theorem sellsAskInv_headPrice (l : List Order) : sellsAskInv l (sellHeadPrice l) := by
  constructor
  · intro nd rest h
    subst h
    rfl
  · intro h
    subst h
    exact Or.inr rfl

/-- The buy-head price always satisfies the bid consistency invariant. -/
theorem buysBidInv_headPrice (l : List Order) : buysBidInv l (buyHeadPrice l) := by
  constructor
  · intro nd rest h
    subst h
    rfl
  · intro h
    subst h
    exact Or.inr rfl

/-- `_process_buy` keeps `effectiveask` consistent with the sell chain. -/
theorem process_buy_ask_inv :
    ∀ (sells : List Order) (o : Order) (ask : EPrice),
      sellsAskInv sells ask →
      sellsAskInv (process_buy o sells ask).2.1 (process_buy o sells ask).2.2.1 := by
  intro sells
  induction sells with
  | nil => intro o ask h; simpa [process_buy] using h
  | cons nd rest ih =>
    intro o ask h
    by_cases hg : nd.price ≤ o.price
    · by_cases hnd : nd.volume - o.volume = 0
      · by_cases hov : o.volume - nd.volume = 0
        · simpa [process_buy, hg, hnd, hov] using sellsAskInv_headPrice rest
        · simpa [process_buy, hg, hnd, hov] using
            ih { o with volume := o.volume - nd.volume } (sellHeadPrice rest)
              (sellsAskInv_headPrice rest)
      · have hask : ask = EPrice.fin nd.price := h.1 nd rest rfl
        subst hask
        have hred1 : (process_buy o (nd :: rest) (EPrice.fin nd.price)).2.1
            = { nd with volume := nd.volume - o.volume } :: rest := by
          simp [process_buy, hg, hnd]
        have hred2 : (process_buy o (nd :: rest) (EPrice.fin nd.price)).2.2.1
            = EPrice.fin nd.price := by
          simp [process_buy, hg, hnd]
        rw [hred1, hred2]
        constructor
        · intro m r hm
          injection hm with h1 h2
          subst h1
          rfl
        · intro hm
          simp at hm
    · simpa [process_buy, hg] using h

/-- `_process_sell` keeps `effectivebid` consistent with the buy chain. -/
theorem process_sell_bid_inv :
    ∀ (buys : List Order) (o : Order) (bid : EPrice),
      buysBidInv buys bid →
      buysBidInv (process_sell o buys bid).2.1 (process_sell o buys bid).2.2.1 := by
  intro buys
  induction buys with
  | nil => intro o bid h; simpa [process_sell] using h
  | cons nd rest ih =>
    intro o bid h
    by_cases hg : o.price ≤ nd.price
    · by_cases hnd : nd.volume - o.volume = 0
      · by_cases hov : o.volume - nd.volume = 0
        · simpa [process_sell, hg, hnd, hov] using buysBidInv_headPrice rest
        · simpa [process_sell, hg, hnd, hov] using
            ih { o with volume := o.volume - nd.volume } (buyHeadPrice rest)
              (buysBidInv_headPrice rest)
      · have hbid : bid = EPrice.fin nd.price := h.1 nd rest rfl
        subst hbid
        have hred1 : (process_sell o (nd :: rest) (EPrice.fin nd.price)).2.1
            = { nd with volume := nd.volume - o.volume } :: rest := by
          simp [process_sell, hg, hnd]
        have hred2 : (process_sell o (nd :: rest) (EPrice.fin nd.price)).2.2.1
            = EPrice.fin nd.price := by
          simp [process_sell, hg, hnd]
        rw [hred1, hred2]
        constructor
        · intro m r hm
          injection hm with h1 h2
          subst h1
          rfl
        · intro hm
          simp at hm
    · simpa [process_sell, hg] using h

/-- Shape of an `add_side` result: either the spliced order has no
predecessor and heads the new chain, or the old head — of a necessarily
non-empty chain — is still the head. -/
theorem add_side_shape (o : Order) (chain : List Order) :
    ((add_side o chain).2 = true ∧ (add_side o chain).1.head? = some o) ∨
    ((add_side o chain).2 = false ∧ (add_side o chain).1.head? = chain.head? ∧
      chain ≠ []) := by
  unfold add_side
  split
  · next i heq =>
    cases i with
    | zero => left; exact ⟨rfl, rfl⟩
    | succ j =>
      right
      cases chain with
      | nil => simp [findSplice] at heq
      | cons nd rest => exact ⟨rfl, rfl, by simp⟩
  · left
    exact ⟨rfl, rfl⟩

/-- `add_to_book` keeps both effective prices consistent with their chain
heads: a spliced order with no predecessor becomes the head and its side's
effective price, otherwise the head and the price are untouched. -/
theorem add_to_book_price_inv (bk : OrderBook) (o : Order)
    (h : priceInvariant bk) : priceInvariant (add_to_book bk o) := by
  cases hs : o.side with
  | B =>
    rcases add_side_shape o bk.buys with ⟨h2, hhd⟩ | ⟨h2, hhd, hne⟩
    · have hbook : add_to_book bk o
          = { bk with buys := (add_side o bk.buys).1,
                      effectivebid := EPrice.fin o.price } := by
        simp [add_to_book, hs, h2]
      rw [hbook]
      refine ⟨⟨?_, ?_⟩, h.2⟩
      · intro nd rest hm
        dsimp only at hm ⊢
        rw [hm] at hhd
        simp only [List.head?_cons, Option.some.injEq] at hhd
        rw [hhd]
      · intro hm
        dsimp only at hm
        rw [hm] at hhd
        simp at hhd
    · have hbook : add_to_book bk o = { bk with buys := (add_side o bk.buys).1 } := by
        simp [add_to_book, hs, h2]
      rw [hbook]
      refine ⟨⟨?_, ?_⟩, h.2⟩
      · intro nd rest hm
        dsimp only at hm ⊢
        cases hb : bk.buys with
        | nil => exact absurd hb hne
        | cons m r =>
          have hbid : bk.effectivebid = EPrice.fin m.price := h.1.1 m r hb
          rw [hm, hb] at hhd
          simp only [List.head?_cons, Option.some.injEq] at hhd
          rw [hbid, hhd]
      · intro hm
        dsimp only at hm
        cases hb : bk.buys with
        | nil => exact absurd hb hne
        | cons m r =>
          rw [hm, hb] at hhd
          simp at hhd
  | S =>
    rcases add_side_shape o bk.sells with ⟨h2, hhd⟩ | ⟨h2, hhd, hne⟩
    · have hbook : add_to_book bk o
          = { bk with sells := (add_side o bk.sells).1,
                      effectiveask := EPrice.fin o.price } := by
        simp [add_to_book, hs, h2]
      rw [hbook]
      refine ⟨h.1, ?_, ?_⟩
      · intro nd rest hm
        dsimp only at hm ⊢
        rw [hm] at hhd
        simp only [List.head?_cons, Option.some.injEq] at hhd
        rw [hhd]
      · intro hm
        dsimp only at hm
        rw [hm] at hhd
        simp at hhd
    · have hbook : add_to_book bk o = { bk with sells := (add_side o bk.sells).1 } := by
        simp [add_to_book, hs, h2]
      rw [hbook]
      refine ⟨h.1, ?_, ?_⟩
      · intro nd rest hm
        dsimp only at hm ⊢
        cases hb : bk.sells with
        | nil => exact absurd hb hne
        | cons m r =>
          have hask : bk.effectiveask = EPrice.fin m.price := h.2.1 m r hb
          rw [hm, hb] at hhd
          simp only [List.head?_cons, Option.some.injEq] at hhd
          rw [hask, hhd]
      · intro hm
        dsimp only at hm
        cases hb : bk.sells with
        | nil => exact absurd hb hne
        | cons m r =>
          rw [hm, hb] at hhd
          simp at hhd

/-- The matching phase keeps both effective prices consistent with their
chain heads. -/
theorem matchStep_price_inv (bk : OrderBook) (o : Order)
    (h : priceInvariant bk) : priceInvariant (matchStep bk o).2.1 := by
  unfold matchStep
  split
  · exact ⟨h.1, process_buy_ask_inv bk.sells o bk.effectiveask h.2⟩
  · split
    · exact ⟨process_sell_bid_inv bk.buys o bk.effectivebid h.1, h.2⟩
    · exact h

/-- One `process_orders` iteration preserves the price consistency
invariant. -/
theorem process_one_price_inv (bk : OrderBook) (o : Order)
    (h : priceInvariant bk) : priceInvariant (process_one bk o).1 := by
  simp only [process_one]
  split
  · exact add_to_book_price_inv _ _ (matchStep_price_inv bk o h)
  · exact matchStep_price_inv bk o h

/-- `process_orders` preserves the price consistency invariant. -/
theorem process_orders_price_inv :
    ∀ (orders : List Order) (bk : OrderBook),
      priceInvariant bk → priceInvariant (process_orders bk orders).1 := by
  intro orders
  induction orders with
  | nil => intro bk h; simpa [process_orders] using h
  | cons o rest ih =>
    intro bk h
    simpa [process_orders] using ih _ (process_one_price_inv bk o h)

/-- C3 amended: after every `process_orders` run from the initial book,
each side's effective price equals the price of that side's chain head
order whenever the chain is non-empty; when a chain is empty its effective
price is one of the two infinities — the initial value (`+inf` for the
bid, `-inf` for the ask) until the side first holds an order, or the
sentinel's price (`-inf` for the bid, `+inf` for the ask) once matching
empties the chain — not always the single infinity the claim names. -/
theorem effective_prices_track_heads :
    ∀ orders : List Order, priceInvariant (process_orders OrderBook.init orders).1 := by
  intro orders
  apply process_orders_price_inv
  constructor
  · exact ⟨fun nd rest hm => by simp [OrderBook.init] at hm, fun _ => Or.inl rfl⟩
  · exact ⟨fun nd rest hm => by simp [OrderBook.init] at hm, fun _ => Or.inl rfl⟩

/-- C10: a zero-volume incoming order whose price crosses the non-empty
opposite side's best price matches the head once: `balance = 0`, so one
report with transacted volume `0` is emitted, the head's volume is
unchanged (`nd.volume - 0`), the head — still positive — is not removed,
the loop breaks on `order.volume == 0`, and the zero-volume remainder is
never inserted, leaving both chains and both effective prices exactly as
they were. -/
theorem zero_volume_crossing_order :
    (∀ (bk : OrderBook) (o nd : Order) (rest : List Order),
      o.side = Side.B → o.volume = 0 → bk.sells = nd :: rest → 0 < nd.volume →
      nd.price ≤ o.price → bk.effectiveask = EPrice.fin nd.price →
      process_one bk o =
        (bk, [{ execid := o.orderid, openid := nd.orderid, price := nd.price,
                volume := 0 }])) ∧
    (∀ (bk : OrderBook) (o nd : Order) (rest : List Order),
      o.side = Side.S → o.volume = 0 → bk.buys = nd :: rest → 0 < nd.volume →
      o.price ≤ nd.price → bk.effectivebid = EPrice.fin nd.price →
      process_one bk o =
        (bk, [{ execid := o.orderid, openid := nd.orderid, price := nd.price,
                volume := 0 }])) := by
  constructor
  · intro bk o nd rest hside hvol hsells hpos hcross ha
    have hnd0 : nd.volume - o.volume ≠ 0 := by omega
    have hndz : ¬ nd.volume = 0 := by omega
    have hbal : o.volume - nd.volume = 0 := by omega
    have hgate : o.side = Side.B ∧
        EPrice.le bk.effectiveask (EPrice.fin o.price) = true := by
      refine ⟨hside, ?_⟩
      rw [ha]
      simp [EPrice.le, hcross]
    have hbuy : process_buy o bk.sells bk.effectiveask
        = ({ o with volume := 0 }, bk.sells, bk.effectiveask,
           [{ execid := o.orderid, openid := nd.orderid, price := nd.price,
              volume := 0 }]) := by
      rw [hsells, ha]
      simp [process_buy, hcross, hnd0, hndz, hbal, hvol]
    have hms : matchStep bk o
        = ({ o with volume := 0 }, bk,
           [{ execid := o.orderid, openid := nd.orderid, price := nd.price,
              volume := 0 }]) := by
      unfold matchStep
      rw [if_pos hgate, hbuy]
    simp only [process_one, hms]
    simp
  · intro bk o nd rest hside hvol hbuys hpos hcross hb
    have hnd0 : nd.volume - o.volume ≠ 0 := by omega
    have hndz : ¬ nd.volume = 0 := by omega
    have hbal : o.volume - nd.volume = 0 := by omega
    have hnotbuy : ¬ (o.side = Side.B ∧
        EPrice.le bk.effectiveask (EPrice.fin o.price) = true) := by
      rw [hside]
      simp
    have hgate : o.side = Side.S ∧
        EPrice.le (EPrice.fin o.price) bk.effectivebid = true := by
      refine ⟨hside, ?_⟩
      rw [hb]
      simp [EPrice.le, hcross]
    have hsell : process_sell o bk.buys bk.effectivebid
        = ({ o with volume := 0 }, bk.buys, bk.effectivebid,
           [{ execid := o.orderid, openid := nd.orderid, price := nd.price,
              volume := 0 }]) := by
      rw [hbuys, hb]
      simp [process_sell, hcross, hnd0, hndz, hbal, hvol]
    have hms : matchStep bk o
        = ({ o with volume := 0 }, bk,
           [{ execid := o.orderid, openid := nd.orderid, price := nd.price,
              volume := 0 }]) := by
      unfold matchStep
      rw [if_neg hnotbuy, if_pos hgate, hsell]
    simp only [process_one, hms]
    simp

/-- A zero-volume Buy that crosses the resting Sell `oS100`. -/
def oB0 : Order :=
  { orderid := "b0", side := Side.B, price := 100, volume := 0, ordertime := 2 }

/-- A zero-volume Sell that crosses the resting Buy `oB100`. -/
def oS0 : Order :=
  { orderid := "s0", side := Side.S, price := 100, volume := 0, ordertime := 2 }

/-- A book holding only the resting Sell `oS100`. -/
def bookS100 : OrderBook :=
  { buys := [], sells := [oS100], effectivebid := EPrice.posInf,
    effectiveask := EPrice.fin 100 }

/-- Witness for `zero_volume_crossing_order` at concrete zero-volume
crossing orders on both sides. -/
theorem zero_volume_crossing_order_witness :
    process_one bookS100 oB0 =
      (bookS100, [{ execid := "b0", openid := "3", price := 100, volume := 0 }]) ∧
    process_one bookB100 oS0 =
      (bookB100, [{ execid := "s0", openid := "1", price := 100, volume := 0 }]) :=
  ⟨zero_volume_crossing_order.1 bookS100 oB0 oS100 [] rfl rfl rfl (by decide)
      (by decide) rfl,
   zero_volume_crossing_order.2 bookB100 oS0 oB100 [] rfl rfl rfl (by decide)
      (by decide) rfl⟩

/-- Witness for `effective_prices_track_heads` at a concrete run. -/
theorem effective_prices_track_heads_witness :
    priceInvariant (process_orders OrderBook.init [oB100, oS100]).1 :=
  effective_prices_track_heads [oB100, oS100]

/-- Witness for `resting_volumes_positive` at a concrete run. -/
theorem resting_volumes_positive_witness :
    allPositive (process_orders OrderBook.init [oB100, oB90]).1.buys ∧
    allPositive (process_orders OrderBook.init [oB100, oB90]).1.sells :=
  resting_volumes_positive [oB100, oB90]

/-- Witness for `process_volume_conservation` at a concrete fill. -/
theorem process_volume_conservation_witness :
    sumVol (process_one bookB100 oS100).2
        = oS100.volume - (matchStep bookB100 oS100).1.volume ∧
    (matchStep bookB100 oS100).1.volume ≤ oS100.volume :=
  process_volume_conservation bookB100 oS100

/-- Witness for `load_book_amended` at a concrete snapshot. -/
theorem load_book_amended_witness :
    load_book (Persisted.snapshot OrderBook.init) = Except.ok OrderBook.init :=
  load_book_amended.2.2 OrderBook.init
